import Mathlib

/-!
Verification of the direct-to-storage upload orchestration subsystem of the
imagetosketch front end, embedded shallowly from
src/hooks/useDirectUpload.ts, src/lib/upload.ts and
src/components/ui/file-upload.tsx.  The file-upload context (the Upload
Registry) is imported by the hook from a module that is not part of the
source tree, so its operations are modelled from the specification where
noted.
-/

namespace DirectUpload

/-! ## Concurrency model of processQueue (src/hooks/useDirectUpload.ts 237-273)

`uploadFiles` computes `maxConcurrent = options.maxConcurrentUploads || 3`
(line 225) and `processQueue` then repeatedly takes a slice of
`maxConcurrent` queued ids, runs their per-file pipelines under
`Promise.all`, and recurses on the remaining ids only after the whole
slice has settled.  We model time abstractly: pipeline `i` occupies the
interval from its admission instant to its completion instant, and its
length is an arbitrary duration `ds[i]`.  `Promise.all` of a slice settles
at the maximum completion instant of the slice, which is when the next
slice is admitted.  A pipeline holds the `uploading` status exactly while
it is in flight (set on entry to `uploadSingleFile`, line 68, cleared to
`success`/`error` on exit, lines 172 and 189). -/

/-- Effective concurrency cap: models `options.maxConcurrentUploads || 3`
(line 225).  An absent option is modelled as 0; JavaScript `||` replaces
the falsy values `undefined` and `0` by the default 3. -/
def effMaxConcurrent (o : Nat) : Nat :=
  if o = 0 then 3 else o

/-- Start/finish schedule of the batched queue: the current slice of at
most `mc` durations is admitted at instant `t`, and the rest of the queue
is admitted when the whole slice has finished, i.e. at `t` plus the
maximum duration of the slice.  The fuel argument (instantiated with the
queue length) only serves termination; one element is consumed per step
whenever `1 ≤ mc`. -/
def schedAux (mc : Nat) : Nat → Nat → List Nat → List (Nat × Nat)
  | 0, _, _ => []
  | _ + 1, _, [] => []
  | fuel + 1, t, d :: ds =>
    ((d :: ds).take mc).map (fun x => (t, t + x)) ++
      schedAux mc fuel (t + ((d :: ds).take mc).foldr max 0) ((d :: ds).drop mc)

/-- Admission/completion instants of every pipeline of a queue with
durations `ds` processed by `processQueue` with cap `mc`. -/
def processSchedule (mc : Nat) (ds : List Nat) : List (Nat × Nat) :=
  schedAux mc ds.length 0 ds

/-- Number of pipelines holding the `uploading` status at instant `t`. -/
def uploadingCount (mc : Nat) (ds : List Nat) (t : Nat) : Nat :=
  (processSchedule mc ds).countP (fun p => decide (p.1 ≤ t) && decide (t < p.2))

theorem le_foldr_max {x : Nat} : {l : List Nat} → x ∈ l → x ≤ l.foldr max 0
  | _ :: l, h => by
    rcases List.mem_cons.mp h with h | h
    · exact h ▸ Nat.le_max_left _ (l.foldr max 0)
    · exact Nat.le_trans (le_foldr_max h) (Nat.le_max_right _ _)

theorem schedAux_start_le (mc : Nat) :
    ∀ fuel t ds p, p ∈ schedAux mc fuel t ds → t ≤ p.1 := by
  intro fuel
  induction fuel with
  | zero => intro t ds p hp; simp [schedAux] at hp
  | succ n ih =>
    intro t ds p hp
    cases ds with
    | nil => simp [schedAux] at hp
    | cons d ds =>
      simp only [schedAux] at hp
      rcases List.mem_append.mp hp with h | h
      · obtain ⟨x, _, hxe⟩ := List.mem_map.mp h
        exact hxe ▸ Nat.le_refl t
      · exact Nat.le_trans (Nat.le_add_right t _) (ih _ _ p h)

theorem countP_schedAux_le (mc : Nat) (tq : Nat) :
    ∀ fuel t ds,
      (schedAux mc fuel t ds).countP
        (fun p => decide (p.1 ≤ tq) && decide (tq < p.2)) ≤ mc := by
  intro fuel
  induction fuel with
  | zero => intro t ds; simp [schedAux]
  | succ n ih =>
    intro t ds
    cases ds with
    | nil => simp [schedAux]
    | cons d ds =>
      simp only [schedAux, List.countP_append]
      by_cases hcase : tq < t + ((d :: ds).take mc).foldr max 0
      · have htail :
            (schedAux mc n (t + ((d :: ds).take mc).foldr max 0)
                ((d :: ds).drop mc)).countP
              (fun p => decide (p.1 ≤ tq) && decide (tq < p.2)) = 0 := by
          rw [List.countP_eq_zero]
          intro p hp
          have hstart := schedAux_start_le mc n _ _ p hp
          simp only [Bool.and_eq_true, decide_eq_true_eq, not_and]
          intro h1
          omega
        have hhead :
            (((d :: ds).take mc).map (fun x => (t, t + x))).countP
              (fun p => decide (p.1 ≤ tq) && decide (tq < p.2)) ≤ mc := by
          calc (((d :: ds).take mc).map (fun x => (t, t + x))).countP
                (fun p => decide (p.1 ≤ tq) && decide (tq < p.2))
              ≤ (((d :: ds).take mc).map (fun x => (t, t + x))).length :=
                List.countP_le_length _
            _ = ((d :: ds).take mc).length := List.length_map _ _
            _ ≤ mc := by rw [List.length_take]; exact Nat.min_le_left _ _
        omega
      · have hhead :
            (((d :: ds).take mc).map (fun x => (t, t + x))).countP
              (fun p => decide (p.1 ≤ tq) && decide (tq < p.2)) = 0 := by
          rw [List.countP_eq_zero]
          intro p hp
          obtain ⟨x, hx, hxe⟩ := List.mem_map.mp hp
          have hxm : x ≤ ((d :: ds).take mc).foldr max 0 := le_foldr_max hx
          have hp2 : p.2 = t + x := by rw [← hxe]
          simp only [Bool.and_eq_true, decide_eq_true_eq, not_and]
          intro h1
          omega
        have := ih (t + ((d :: ds).take mc).foldr max 0) ((d :: ds).drop mc)
        omega

theorem schedAux_sequential (mc : Nat) :
    ∀ fuel t ds p q r, p ∈ schedAux mc fuel t ds → q ∈ schedAux mc fuel t ds →
      p.1 < q.1 → r ∈ schedAux mc fuel t ds → r.1 = p.1 → r.2 ≤ q.1 := by
  intro fuel
  induction fuel with
  | zero => intro t ds p q r hp _ _ _ _; simp [schedAux] at hp
  | succ n ih =>
    intro t ds p q r hp hq hpq hr hrp
    cases ds with
    | nil => simp [schedAux] at hp
    | cons d ds =>
      simp only [schedAux] at hp hq hr
      have hpt : t ≤ p.1 := by
        have : p ∈ schedAux mc (n + 1) t (d :: ds) := by
          simp only [schedAux]; exact hp
        exact schedAux_start_le mc (n + 1) t (d :: ds) p this
      rcases List.mem_append.mp hq with hqH | hqT
      · obtain ⟨x, _, hxe⟩ := List.mem_map.mp hqH
        have : q.1 = t := by rw [← hxe]
        omega
      · have hqt : t + ((d :: ds).take mc).foldr max 0 ≤ q.1 :=
          schedAux_start_le mc n _ _ q hqT
        rcases List.mem_append.mp hr with hrH | hrT
        · obtain ⟨x, hx, hxe⟩ := List.mem_map.mp hrH
          have hxm : x ≤ ((d :: ds).take mc).foldr max 0 := le_foldr_max hx
          have : r.2 = t + x := by rw [← hxe]
          omega
        · have hrq : r.1 < q.1 := hrp ▸ hpq
          exact ih _ _ r q r hrT hqT hrq hrT rfl

theorem effMaxConcurrent_pos (o : Nat) : 1 ≤ effMaxConcurrent o := by
  unfold effMaxConcurrent
  split
  · omega
  · omega

/-- The admission discipline the claim attributes to `processQueue`: every
time a pipeline completes while at least one id is still queued (some
pipeline is admitted strictly later), a queued pipeline is admitted at
that very completion instant. -/
def slidingWindowAdmission (mc : Nat) (ds : List Nat) : Prop :=
  ∀ p ∈ processSchedule mc ds,
    (∃ q ∈ processSchedule mc ds, p.2 < q.1) →
    ∃ r ∈ processSchedule mc ds, r.1 = p.2

/-- C1 counterexample: with `maxConcurrent = 2` and three pipelines of
durations 2, 1 and 1, the second pipeline completes at instant 1 while the
third is still queued, yet nothing is admitted at instant 1 — the third
pipeline waits until the whole first slice finishes at instant 2.
`processQueue` therefore does not maintain a sliding window. -/
theorem processQueue_not_sliding_window :
    ¬ slidingWindowAdmission (effMaxConcurrent 2) [2, 1, 1] := by
  unfold slidingWindowAdmission
  decide

/-- C1 amended: `processQueue` runs the queue in fixed-size sequential
batches of `maxConcurrent` ids.  At most `maxConcurrent` pipelines are in
flight at any instant, and whenever a pipeline is admitted later than
another (a later batch), every pipeline admitted together with the earlier
one has already completed — a freed slot is never refilled before its
whole batch finishes. -/
theorem processQueue_fixed_batches (o : Nat) (ds : List Nat) :
    (∀ t, uploadingCount (effMaxConcurrent o) ds t ≤ effMaxConcurrent o) ∧
    (∀ p ∈ processSchedule (effMaxConcurrent o) ds,
      ∀ q ∈ processSchedule (effMaxConcurrent o) ds, p.1 < q.1 →
        ∀ r ∈ processSchedule (effMaxConcurrent o) ds, r.1 = p.1 → r.2 ≤ q.1) := by
  constructor
  · intro t
    exact countP_schedAux_le (effMaxConcurrent o) t _ 0 ds
  · intro p hp q hq hpq r hr hrp
    exact schedAux_sequential (effMaxConcurrent o) _ 0 ds p q r hp hq hpq hr hrp

/-- C2: for every queue of pipeline durations and every requested cap, at
no instant do more than `maxConcurrent` files hold the `uploading` status
simultaneously. -/
theorem uploadingCount_le_maxConcurrent (o : Nat) (ds : List Nat) (t : Nat) :
    uploadingCount (effMaxConcurrent o) ds t ≤ effMaxConcurrent o :=
  countP_schedAux_le (effMaxConcurrent o) t _ 0 ds

/-! ## PUT request headers (src/hooks/useDirectUpload.ts 139-148 and
src/lib/upload.ts 63-67)

In `uploadSingleFile` the only `setRequestHeader` call on the PUT request
is line 142, which sets `Content-Type` to `file.type ||
'application/octet-stream'` — exactly the content type that line 76
declared to the authorization service as `file_type`.  In
`uploadFileWithPresignedUrl` the only header set is `Content-Type` with
value `file.type` (line 66). -/

/-- Content type declared to the authorization service for a file
(line 76): the file's own type, with the falsy empty string replaced by
`application/octet-stream`. -/
def declaredFileType (fileType : String) : String :=
  if fileType = "" then "application/octet-stream" else fileType

/-- Complete header list of the PUT request issued by `uploadSingleFile`
(line 142 is the only `setRequestHeader` call). -/
def putRequestHeaders (fileType : String) : List (String × String) :=
  [("Content-Type", declaredFileType fileType)]

/-- Complete header list of the PUT request issued by
`uploadFileWithPresignedUrl` in src/lib/upload.ts (line 66 is the only
`setRequestHeader` call). -/
def libPutRequestHeaders (fileType : String) : List (String × String) :=
  [("Content-Type", fileType)]

/-- C3: both transfer implementations attach exactly one header to the
PUT request, named `Content-Type`; its value is the content type the file
declared (identically the value sent to the authorization request, with a
file that declares no type defaulting to `application/octet-stream` in the
hook implementation). -/
theorem put_request_single_content_type_header (ft : String) :
    (putRequestHeaders ft).length = 1 ∧
    (∀ h ∈ putRequestHeaders ft, h.1 = "Content-Type") ∧
    putRequestHeaders ft = [("Content-Type", declaredFileType ft)] ∧
    (ft ≠ "" → putRequestHeaders ft = [("Content-Type", ft)]) ∧
    (libPutRequestHeaders ft).length = 1 ∧
    (∀ h ∈ libPutRequestHeaders ft, h.1 = "Content-Type") ∧
    libPutRequestHeaders ft = [("Content-Type", ft)] := by
  refine ⟨rfl, ?_, rfl, ?_, rfl, ?_, rfl⟩
  · intro h hmem
    rcases List.mem_singleton.mp hmem with rfl
    rfl
  · intro hne
    simp [putRequestHeaders, declaredFileType, hne]
  · intro h hmem
    rcases List.mem_singleton.mp hmem with rfl
    rfl

/-- C3 witness: at the concrete declared type image/png the hook attaches
the single header Content-Type: image/png. -/
theorem put_request_single_content_type_header_witness :
    putRequestHeaders ("image/png") = [("Content-Type", "image/png")] :=
  (put_request_single_content_type_header ("image/png")).2.2.2.1 (by decide)

/-! ## Progress percent (src/hooks/useDirectUpload.ts 89-100 and
src/lib/upload.ts 53-59)

Both transfer implementations compute
`Math.round((event.loaded / event.total) * 100)` on each progress event.
For nonnegative arguments JavaScript `Math.round q` is the floor of
`q + 1/2`, so over the naturals the reported percent is
`(200 * loaded + total) / (2 * total)` in integer division. -/

/-- Percent reported on a progress event with `loaded` of `total` bytes
sent: `Math.round((loaded / total) * 100)` (line 91). -/
def percentComplete (loaded total : Nat) : Nat :=
  (200 * loaded + total) / (2 * total)

/-- The formula the claim attributes to the code: integer percent
`floor(bytesSent / totalBytes * 100)`, reaching 100 only at completion. -/
def floorProgressClaim : Prop :=
  ∀ loaded total, 0 < total → loaded ≤ total →
    percentComplete loaded total = 100 * loaded / total ∧
    (percentComplete loaded total = 100 → loaded = total)

/-- C6 counterexample: at 255 of 256 bytes sent (both ratios exactly
representable in binary floating point) the code reports
`round(99.609375) = 100`, while `floor` gives 99; the reported value
reaches 100 before the transfer completes. -/
theorem percentComplete_not_floor : ¬ floorProgressClaim := by
  intro h
  have h255 := h 255 256 (by decide) (by decide)
  exact absurd h255.1 (by decide)

/-- C6 amended: the reported percent is the nearest integer to
`bytesSent / totalBytes * 100` (ties rounding up), characterized by the
two division bounds below; completion reports 100, and — for
`bytesSent ≤ totalBytes` — 100 is reported exactly when
`200 * bytesSent ≥ 199 * totalBytes`, which can happen strictly before
completion. -/
theorem percentComplete_round (loaded total : Nat) (htot : 0 < total)
    (hle : loaded ≤ total) :
    2 * total * percentComplete loaded total ≤ 200 * loaded + total ∧
    200 * loaded + total < 2 * total * (percentComplete loaded total + 1) ∧
    percentComplete total total = 100 ∧
    (percentComplete loaded total = 100 ↔ 199 * total ≤ 200 * loaded) := by
  have h2t : 0 < 2 * total := by omega
  refine ⟨?_, ?_, ?_, ?_⟩
  · exact Nat.mul_div_le (200 * loaded + total) (2 * total)
  · have hdm := Nat.div_add_mod (200 * loaded + total) (2 * total)
    have hmod : (200 * loaded + total) % (2 * total) < 2 * total :=
      Nat.mod_lt _ h2t
    have hstep :
        2 * total * ((200 * loaded + total) / (2 * total)) +
            (200 * loaded + total) % (2 * total) <
          2 * total * ((200 * loaded + total) / (2 * total)) + 2 * total :=
      Nat.add_lt_add_left hmod _
    rw [hdm] at hstep
    calc 200 * loaded + total
        < 2 * total * ((200 * loaded + total) / (2 * total)) + 2 * total :=
          hstep
      _ = 2 * total * (percentComplete loaded total + 1) := by
          rw [Nat.mul_add, Nat.mul_one]; rfl
  · exact Nat.div_eq_of_lt_le (by omega) (by omega)
  · have h1 : 100 ≤ (200 * loaded + total) / (2 * total) ↔
        100 * (2 * total) ≤ 200 * loaded + total := Nat.le_div_iff_mul_le h2t
    have h2 : (200 * loaded + total) / (2 * total) < 101 ↔
        200 * loaded + total < 101 * (2 * total) := Nat.div_lt_iff_lt_mul h2t
    constructor
    · intro h100
      have hge : 100 * (2 * total) ≤ 200 * loaded + total := h1.mp h100.ge
      omega
    · intro h199
      have hge : 100 ≤ (200 * loaded + total) / (2 * total) :=
        h1.mpr (by omega)
      have hlt : (200 * loaded + total) / (2 * total) < 101 :=
        h2.mpr (by omega)
      exact Nat.le_antisymm (Nat.lt_succ_iff.mp hlt) hge

/-- C6 amended witness: at 255 of 256 bytes the rounded percent is 100
even though the transfer is not complete. -/
theorem percentComplete_round_witness :
    percentComplete 255 256 = 100 ∧ (255 : Nat) < 256 :=
  ⟨(percentComplete_round 255 256 (by decide) (by decide)).2.2.2.mpr
      (by decide),
    by decide⟩

/-! ## XHR load handler and ETag extraction
(src/hooks/useDirectUpload.ts 112-123)

On the `load` event the code resolves with
`etag = xhr.getResponseHeader('ETag')?.replace(/"/g, '') || ''` when the
status is in 200-299 and rejects with an error message otherwise.  The
header is modelled as `Option String` (`getResponseHeader` returns null
when the header is absent), and the global regex replace removes every
quote character. -/

/-- Model of `replace(/"/g, '')` on the ETag value: remove every quote
character (character code 34). -/
def stripQuotes (s : String) : String :=
  String.mk (s.toList.filter (fun c => c != Char.ofNat 34))

/-- Model of the load handler (lines 113-123): on a 2xx status resolve
with the quote-stripped ETag, the empty string standing in when the
header is absent (the `|| ''` default); on any other status reject with
the error message built from the status and response text. -/
def handleLoad (status : Nat) (responseText : String) (etagHeader : Option String) :
    Except String String :=
  if 200 ≤ status ∧ status < 300 then
    Except.ok (match etagHeader with
      | some e => stripQuotes e
      | none => "")
  else
    Except.error ("Upload failed with status " ++ toString status ++ ": " ++ responseText)

/-- The behaviour the claim attributes to the load handler: a 2xx
response without an ETag header makes the transfer fail. -/
def integrityTokenMissingClaim : Prop :=
  ∀ status responseText, 200 ≤ status → status < 300 →
    ∃ msg, handleLoad status responseText none = Except.error msg

/-- C7 counterexample: a 200 response with no ETag header resolves
successfully with the empty integrity token — the transfer does not fail
with any missing-token error. -/
theorem handleLoad_missing_etag_succeeds : ¬ integrityTokenMissingClaim := by
  intro h
  obtain ⟨msg, hmsg⟩ := h 200 ("") (by decide) (by decide)
  rw [show handleLoad 200 ("") none = Except.ok ("") from rfl] at hmsg
  exact Except.noConfusion hmsg

/-- C7 amended: on a 2xx status the handler resolves with the ETag value
with every quote character removed (for conventionally quoted tokens this
is exactly the surrounding-quote strip), and resolves with the empty
string — still a success, later passed to confirmation — when the
response carries no ETag; it rejects only on non-2xx statuses. -/
theorem handleLoad_spec (status : Nat) (responseText e : String)
    (h2 : 200 ≤ status) (h3 : status < 300) :
    handleLoad status responseText (some e) = Except.ok (stripQuotes e) ∧
    handleLoad status responseText none = Except.ok ("") ∧
    ((stripQuotes e).toList.all (fun c => c != Char.ofNat 34)) = true := by
  refine ⟨?_, ?_, ?_⟩
  · unfold handleLoad
    rw [if_pos ⟨h2, h3⟩]
  · unfold handleLoad
    rw [if_pos ⟨h2, h3⟩]
  · rw [List.all_eq_true]
    intro c hc
    unfold stripQuotes at hc
    have : c ∈ (e.toList.filter (fun c => c != Char.ofNat 34)) := hc
    exact (List.mem_filter.mp this).2

/-- C7 amended witness: a 204 response whose ETag is a quoted token
resolves with the unquoted token. -/
theorem handleLoad_spec_witness :
    handleLoad 204 ("") (some ("\"abc123\"")) = Except.ok ("abc123") := by
  have h := handleLoad_spec 204 ("") ("\"abc123\"") (by decide) (by decide)
  rw [h.1]
  rfl

/-! ## Upload registry

The hook and the FileUpload component both delegate file registration to
`fileUploadContext.addFiles` (src/hooks/useDirectUpload.ts 229,
src/components/ui/file-upload.tsx 182).  The context module itself is not
part of the source tree, so registration is modelled from the
specification. -/

/-- Status a registry entry can hold (spec section 4.1). -/
inductive UploadStatus where
  | pending
  | uploading
  | success
  | error (msg : String)
deriving DecidableEq, Repr

/-- One file submitted for upload: its registration-relevant identity. -/
structure FileMeta where
  name : String
  size : Nat
  ctype : String
deriving DecidableEq, Repr

/-- A live registry entry (TrackedFile). -/
structure RegEntry where
  id : Nat
  name : String
  size : Nat
  status : UploadStatus
deriving DecidableEq, Repr

/-- Test whether an entry occupies the (name, size) key. -/
def keyMatches (e : RegEntry) (n : String) (sz : Nat) : Bool :=
  e.name == n && e.size == sz

/-- Entry created for a freshly registered file: fresh id, the file's
name and size, pending status. -/
def freshEntry (nid : Nat) (f : FileMeta) : RegEntry :=
  {id := nid, name := f.name, size := f.size, status := UploadStatus.pending}

/-- Modelled from the spec: the file-upload context operation
`addFiles` (register), whose implementation is absent from src/.  Spec
section 4.1: for each input file, skip it if an entry with matching
name+size already exists, otherwise create a TrackedFile with a fresh id
and pending status.  The pair carries the registry and the next fresh
id. -/
def registerOne (s : List RegEntry × Nat) (f : FileMeta) : List RegEntry × Nat :=
  if s.1.any (fun e => keyMatches e f.name f.size) then s
  else (s.1 ++ [freshEntry s.2 f], s.2 + 1)

/-- Modelled from the spec: register a batch of files left to right. -/
def registerFiles (s : List RegEntry × Nat) (files : List FileMeta) :
    List RegEntry × Nat :=
  files.foldl registerOne s

/-- The registry invariant: at most one live entry per (name, size). -/
def DedupInv (reg : List RegEntry) : Prop :=
  ∀ n sz, reg.countP (fun e => keyMatches e n sz) ≤ 1

theorem registerOne_preserves_dedup (s : List RegEntry × Nat)
    (f : FileMeta) (hinv : DedupInv s.1) :
    DedupInv (registerOne s f).1 := by
  intro n sz
  unfold registerOne
  by_cases hk : s.1.any (fun e => keyMatches e f.name f.size)
  · rw [if_pos hk]
    exact hinv n sz
  · rw [if_neg hk]
    simp only [List.countP_append]
    by_cases hmatch : keyMatches (freshEntry s.2 f) n sz
    · have hn : f.name = n ∧ f.size = sz := by
        unfold keyMatches freshEntry at hmatch
        simp only [Bool.and_eq_true, beq_iff_eq] at hmatch
        exact hmatch
      have hzero : s.1.countP (fun e => keyMatches e n sz) = 0 := by
        rw [List.countP_eq_zero]
        intro e he
        have := (List.any_eq_false.mp (Bool.eq_false_iff.mpr hk)) e he
        rw [← hn.1, ← hn.2]
        exact this
      have hone : [freshEntry s.2 f].countP (fun e => keyMatches e n sz) ≤ 1 :=
        List.countP_le_length _
      omega
    · have hone : [freshEntry s.2 f].countP (fun e => keyMatches e n sz) = 0 := by
        rw [List.countP_eq_zero]
        intro e he
        rcases List.mem_singleton.mp he with rfl
        exact hmatch
      have := hinv n sz
      omega

theorem registerFiles_preserves_dedup (files : List FileMeta) :
    ∀ s : List RegEntry × Nat, DedupInv s.1 →
      DedupInv (registerFiles s files).1 := by
  induction files with
  | nil => intro s hinv; exact hinv
  | cons f fs ih =>
    intro s hinv
    have hstep := registerOne_preserves_dedup s f hinv
    exact ih (registerOne s f) hstep

theorem registerOne_key_present (s : List RegEntry × Nat) (f : FileMeta) :
    ((registerOne s f).1.any (fun e => keyMatches e f.name f.size)) = true := by
  unfold registerOne
  by_cases hk : s.1.any (fun e => keyMatches e f.name f.size)
  · rw [if_pos hk]
    exact hk
  · rw [if_neg hk]
    rw [List.any_append]
    have hsing : ([freshEntry s.2 f].any
        (fun e => keyMatches e f.name f.size)) = true := by
      simp [keyMatches, freshEntry]
    rw [hsing, Bool.or_true]

/-- C4: registration deduplicates by (name, size).  First, any batch of
registrations preserves the at-most-one-entry-per-key invariant; second,
re-registering a file just registered is a no-op; third, registering two
files with identical name and size into an empty registry yields exactly
one entry for that key. -/
theorem register_dedup (reg : List RegEntry) (nid : Nat)
    (files : List FileMeta) (f : FileMeta) (hinv : DedupInv reg) :
    DedupInv (registerFiles (reg, nid) files).1 ∧
    registerFiles (registerOne (reg, nid) f) [f] = registerOne (reg, nid) f ∧
    ((registerFiles ([], nid) [f, f]).1.countP
      (fun e => keyMatches e f.name f.size)) = 1 := by
  refine ⟨registerFiles_preserves_dedup files (reg, nid) hinv, ?_, ?_⟩
  · show registerOne (registerOne (reg, nid) f) f = registerOne (reg, nid) f
    have hkey := registerOne_key_present (reg, nid) f
    generalize registerOne (reg, nid) f = t at hkey ⊢
    unfold registerOne
    rw [if_pos hkey]
  · have hkey := registerOne_key_present ([], nid) f
    show (registerOne (registerOne ([], nid) f) f).1.countP
        (fun e => keyMatches e f.name f.size) = 1
    have hstep1 : registerOne ([], nid) f = ([freshEntry nid f], nid + 1) := by
      unfold registerOne
      rw [if_neg]
      · rfl
      · simp
    rw [hstep1] at hkey ⊢
    unfold registerOne
    rw [if_pos hkey]
    simp [List.countP_cons, keyMatches, freshEntry]

/-- C4 witness: registering the same (name, size) twice into an empty
registry leaves exactly one entry for that key. -/
theorem register_dedup_witness :
    ((registerFiles ([], 0) [⟨"a", 5, "t"⟩, ⟨"a", 5, "t"⟩]).1.countP
      (fun e => keyMatches e ("a") 5)) = 1 :=
  (register_dedup [] 0 [] ⟨"a", 5, "t"⟩ (fun _ _ => Nat.zero_le 1)).2.2

/-! ## Batch coordinator (src/hooks/useDirectUpload.ts 214-282)

`uploadFiles` returns `[]` immediately on an empty input (line 218);
otherwise it raises the uploading flag, resets the progress map, adds the
files to the registry, collects the ids of registry entries matching an
input file by name and size (lines 231-234), and runs `processQueue` over
those ids, collecting one result per queued id in queue order.  The three
asynchronous stages of a per-file pipeline (authorize, transfer, confirm)
are abstracted into one outcome per id: either the confirmed file info or
the message of the error that the catch block of `uploadSingleFile`
(lines 185-208) converts into an error status plus a failure result.
Per-event progress-map updates during transfers are not modelled; the
registry mutations the context would interleave are applied at the
end. -/

/-- File metadata returned by the confirmation service
(`confirmation.data.file_info`, lines 169 and 179-184). -/
structure FileInfo where
  key : String
  size : Nat
  etag : String
deriving DecidableEq, Repr

/-- Result returned per file by `uploadSingleFile` (interface
UploadResult, lines 15-21). -/
structure UploadResult where
  key : String
  size : Nat
  etag : String
  success : Bool
  error : Option String
deriving DecidableEq, Repr

/-- Outcome of the per-file pipeline for each registry id. -/
abbrev PipelineOutcome := Nat → Except String FileInfo

/-- Model of `uploadSingleFile`'s return value (lines 179-184 on success,
lines 201-207 in the catch block): the function is total — a pipeline
failure becomes a returned failure result, never an exception. -/
def singleFileResult : Except String FileInfo → UploadResult
  | Except.ok info =>
    {key := info.key, size := info.size, etag := info.etag,
     success := true, error := none}
  | Except.error msg =>
    {key := "", size := 0, etag := "", success := false, error := some msg}

/-- Status `uploadSingleFile` leaves in the registry (line 172 on
success, lines 189-194 in the catch block). -/
def singleFileStatus : Except String FileInfo → UploadStatus
  | Except.ok _ => UploadStatus.success
  | Except.error msg => UploadStatus.error msg

/-- Result `processQueue` produces for one queued id (lines 242-262):
ids absent from the registry yield the file-not-found failure result,
present ids run the per-file pipeline. -/
def resultForId (reg : List RegEntry) (outc : PipelineOutcome) (i : Nat) :
    UploadResult :=
  match reg.find? (fun e => e.id == i) with
  | none =>
    {key := "", size := 0, etag := "", success := false,
     error := some ("File not found in context")}
  | some _ => singleFileResult (outc i)

/-- Batched queue processing (lines 237-271): slice off `maxConcurrent`
ids, settle them, append their results, recurse on the rest; return when
the slice is empty.  The fuel argument (instantiated with the queue
length) serves termination only. -/
def processQueue (mc : Nat) (reg : List RegEntry) (outc : PipelineOutcome) :
    Nat → List Nat → List UploadResult
  | 0, _ => []
  | fuel + 1, ids =>
    if (ids.take mc).isEmpty then []
    else
      (ids.take mc).map (resultForId reg outc) ++
        processQueue mc reg outc fuel (ids.drop mc)

/-- Predicate of the id-collection filter (line 233): the registry entry
matches some input file by name and size. -/
def matchesSomeInput (files : List FileMeta) (e : RegEntry) : Bool :=
  files.any (fun f => f.name == e.name && f.size == e.size)

/-- Queued ids (lines 231-234): ids of the registry entries matching an
input file, in registry order. -/
def uploadFileIds (files : List FileMeta) (reg : List RegEntry) : List Nat :=
  (reg.filter (matchesSomeInput files)).map (fun e => e.id)

/-- Hook-and-registry state touched by `uploadFiles`: the `uploading`
flag, the per-file progress map, the registry and its fresh-id source. -/
structure HookState where
  uploading : Bool
  progressMap : List (Nat × Nat)
  registry : List RegEntry
  nextId : Nat
deriving DecidableEq, Repr

/-- Statuses recorded by the per-file pipelines: every processed id ends
in the status of its outcome, other entries are untouched. -/
def applyStatuses (outc : PipelineOutcome) (ids : List Nat)
    (reg : List RegEntry) : List RegEntry :=
  reg.map (fun e =>
    if ids.contains e.id then
      {e with status := singleFileStatus (outc e.id)}
    else e)

/-- Model of `uploadFiles` (lines 214-282).  An empty input returns `[]`
at once (line 218) without touching any state.  Otherwise the files are
registered, the matching ids queued, and the queue processed; the
`finally` block lowers the uploading flag, and `setProgress({})` has
reset the progress map (per-event progress updates during the transfers
are not modelled). -/
def uploadFiles (files : List FileMeta) (outc : PipelineOutcome)
    (mcOpt : Nat) (s : HookState) : List UploadResult × HookState :=
  if files.isEmpty then ([], s)
  else
    (processQueue (effMaxConcurrent mcOpt)
        (registerFiles (s.registry, s.nextId) files).1 outc
        (uploadFileIds files (registerFiles (s.registry, s.nextId) files).1).length
        (uploadFileIds files (registerFiles (s.registry, s.nextId) files).1),
      {uploading := false, progressMap := [],
       registry := applyStatuses outc
         (uploadFileIds files (registerFiles (s.registry, s.nextId) files).1)
         (registerFiles (s.registry, s.nextId) files).1,
       nextId := (registerFiles (s.registry, s.nextId) files).2})

/-- C10: calling `uploadFiles` with an empty file list returns the empty
result list and leaves the hook state — uploading flag, progress map,
registry, id source — untouched. -/
theorem uploadFiles_empty (outc : PipelineOutcome) (mcOpt : Nat)
    (s : HookState) : uploadFiles [] outc mcOpt s = ([], s) := rfl

theorem processQueue_eq_map (mc : Nat) (hmc : 1 ≤ mc) (reg : List RegEntry)
    (outc : PipelineOutcome) :
    ∀ fuel ids, ids.length ≤ fuel →
      processQueue mc reg outc fuel ids = ids.map (resultForId reg outc) := by
  intro fuel
  induction fuel with
  | zero =>
    intro ids h
    have hnil : ids = [] := List.eq_nil_of_length_eq_zero (Nat.le_zero.mp h)
    subst hnil
    rfl
  | succ n ih =>
    intro ids h
    cases ids with
    | nil => simp [processQueue]
    | cons x xs =>
      obtain ⟨k, rfl⟩ : ∃ k, mc = k + 1 := ⟨mc - 1, by omega⟩
      have hdrop : (xs.drop k).length ≤ n := by
        rw [List.length_drop]
        simp only [List.length_cons] at h
        omega
      simp only [processQueue, List.take_succ_cons, List.drop_succ_cons,
        List.isEmpty_cons, Bool.false_eq_true, if_false]
      rw [ih (xs.drop k) hdrop, ← List.map_append]
      congr 1
      rw [List.cons_append, List.take_append_drop]

theorem uploadFileIds_nil (reg : List RegEntry) :
    uploadFileIds [] reg = [] := by
  unfold uploadFileIds
  have : reg.filter (matchesSomeInput []) = [] := by
    simp [matchesSomeInput]
  rw [this]
  rfl

theorem uploadFiles_nil (outc : PipelineOutcome) (mcOpt : Nat)
    (s : HookState) : uploadFiles [] outc mcOpt s = ([], s) := rfl

/-- Helper: the results of `uploadFiles` are exactly the queued ids mapped
through their own per-id result, in queue order. -/
theorem uploadFiles_results_eq_map (files : List FileMeta)
    (outc : PipelineOutcome) (mcOpt : Nat) (s : HookState) :
    (uploadFiles files outc mcOpt s).1 =
      (uploadFileIds files (registerFiles (s.registry, s.nextId) files).1).map
        (resultForId (registerFiles (s.registry, s.nextId) files).1 outc) := by
  cases files with
  | nil =>
    rw [uploadFiles_nil]
    rw [show registerFiles (s.registry, s.nextId) [] = (s.registry, s.nextId)
      from rfl]
    rw [uploadFileIds_nil]
    rfl
  | cons f fs =>
    unfold uploadFiles
    rw [if_neg (by simp)]
    exact processQueue_eq_map (effMaxConcurrent mcOpt)
      (effMaxConcurrent_pos mcOpt) _ outc _ _ (Nat.le_refl _)

theorem resultForId_congr (reg : List RegEntry) (outc outc2 : PipelineOutcome)
    (j : Nat) (h : outc2 j = outc j) :
    resultForId reg outc2 j = resultForId reg outc j := by
  unfold resultForId
  cases reg.find? (fun e => e.id == j) with
  | none => rfl
  | some e => rw [h]

theorem resultForId_of_mem (reg : List RegEntry) (outc : PipelineOutcome)
    (i : Nat) (hmem : ∃ e ∈ reg, e.id = i) :
    resultForId reg outc i = singleFileResult (outc i) := by
  obtain ⟨e, he, hei⟩ := hmem
  rcases hfind : reg.find? (fun e => e.id == i) with _ | e2
  · exfalso
    have := List.find?_eq_none.mp hfind e he
    rw [hei] at this
    exact this (beq_self_eq_true i)
  · unfold resultForId
    rw [hfind]

/-- C5: per-file failures are isolated.  (1) The batch result list is a
per-id map, so each entry depends only on its own pipeline outcome and
the coordinator always returns a list — one entry per queued id — rather
than throwing.  (2) A queued id whose pipeline fails with `msg` yields
the failure result `{success := false, errorMessage := msg}`.  (3) That
file's registry entry ends in the error status carrying the message.
(4) Outcomes agreeing away from `i` give identical per-id results for
every queued id other than `i`: a sibling's result is unaffected by the
failing file. -/
theorem uploadFiles_failure_isolation (files : List FileMeta)
    (outc outc2 : PipelineOutcome) (mcOpt : Nat) (s : HookState)
    (i : Nat) (msg : String)
    (hfail : outc i = Except.error msg)
    (hagree : ∀ j, j ≠ i → outc2 j = outc j) :
    ((uploadFiles files outc mcOpt s).1 =
      (uploadFileIds files (registerFiles (s.registry, s.nextId) files).1).map
        (resultForId (registerFiles (s.registry, s.nextId) files).1 outc)) ∧
    (i ∈ uploadFileIds files (registerFiles (s.registry, s.nextId) files).1 →
      resultForId (registerFiles (s.registry, s.nextId) files).1 outc i =
        {key := "", size := 0, etag := "", success := false,
         error := some msg}) ∧
    (∀ e ∈ (uploadFiles files outc mcOpt s).2.registry, e.id = i →
      ((uploadFileIds files
          (registerFiles (s.registry, s.nextId) files).1).contains i) = true →
      e.status = UploadStatus.error msg) ∧
    (∀ j ∈ uploadFileIds files (registerFiles (s.registry, s.nextId) files).1,
      j ≠ i →
      resultForId (registerFiles (s.registry, s.nextId) files).1 outc j =
        resultForId (registerFiles (s.registry, s.nextId) files).1 outc2 j) := by
  refine ⟨uploadFiles_results_eq_map files outc mcOpt s, ?_, ?_, ?_⟩
  · intro hmem
    obtain ⟨e, hef, hei⟩ := List.mem_map.mp hmem
    have hereg : e ∈ (registerFiles (s.registry, s.nextId) files).1 :=
      (List.mem_filter.mp hef).1
    rw [resultForId_of_mem _ outc i ⟨e, hereg, hei⟩, hfail]
    rfl
  · intro e hereg hei hcont
    unfold uploadFiles at hereg
    cases files with
    | nil =>
      rw [show registerFiles (s.registry, s.nextId) [] = (s.registry, s.nextId)
        from rfl, uploadFileIds_nil] at hcont
      exact absurd hcont (by simp)
    | cons f fs =>
      rw [if_neg (by simp)] at hereg
      obtain ⟨e0, he0, heq⟩ := List.mem_map.mp hereg
      by_cases hc :
          ((uploadFileIds (f :: fs)
            (registerFiles (s.registry, s.nextId) (f :: fs)).1).contains e0.id)
      · rw [if_pos hc] at heq
        have hid : e0.id = i := by
          rw [← hei, ← heq]
        rw [← heq, hid, hfail]
        rfl
      · rw [if_neg hc] at heq
        have hid : e0.id = i := by
          rw [← hei, ← heq]
        rw [hid] at hc
        exact absurd hcont hc
  · intro j _ hji
    exact (resultForId_congr _ outc outc2 j (hagree j hji)).symm

/-- C5 witness: a one-file batch whose pipeline fails returns the single
failure result carrying the message, and the coordinator returns
normally. -/
theorem uploadFiles_failure_isolation_witness :
    (uploadFiles [⟨"a", 1, "t"⟩] (fun _ => Except.error ("boom")) 0
        ⟨false, [], [], 0⟩).1 =
      [{key := "", size := 0, etag := "", success := false,
        error := some ("boom")}] := by
  have h := uploadFiles_failure_isolation [⟨"a", 1, "t"⟩]
    (fun _ => Except.error ("boom")) (fun _ => Except.error ("boom")) 0
    ⟨false, [], [], 0⟩ 0 ("boom") rfl (fun _ _ => rfl)
  rw [h.1]
  rfl

/-! ## One result per input file? (C8)

The queued ids are one per matching registry entry, i.e. one per live
(name, size) key — not one per input file: duplicate (name, size) pairs
in the input are deduplicated by registration and produce a single
queued id, hence a single result. -/

/-- The property the claim states: `uploadFiles` returns exactly one
BatchResult per input file. -/
def resultsPerInputClaim : Prop :=
  ∀ files outc mcOpt s,
    ((uploadFiles files outc mcOpt s).1).length = files.length

/-- C8 counterexample: submitting the same file twice yields a single
result for two input files — registration deduplicates by (name, size),
and results are per queued id, not per input file. -/
theorem uploadFiles_duplicate_input_counterexample :
    ((uploadFiles [⟨"a", 5, "t"⟩, ⟨"a", 5, "t"⟩]
        (fun _ => Except.error ("x")) 0 ⟨false, [], [], 0⟩).1).length = 1 ∧
    ¬ resultsPerInputClaim := by
  constructor
  · rfl
  · intro h
    have h2 := h [⟨"a", 5, "t"⟩, ⟨"a", 5, "t"⟩] (fun _ => Except.error ("x"))
      0 ⟨false, [], [], 0⟩
    rw [show ((uploadFiles [⟨"a", 5, "t"⟩, ⟨"a", 5, "t"⟩]
        (fun _ => Except.error ("x")) 0 ⟨false, [], [], 0⟩).1).length = 1
      from rfl] at h2
    exact absurd h2 (by decide)

/-- Registry contents produced by registering a batch of fresh, pairwise
key-distinct files: one entry per file, in input order, with sequential
ids. -/
def expectedReg (nid : Nat) : List FileMeta → List RegEntry
  | [] => []
  | f :: fs => freshEntry nid f :: expectedReg (nid + 1) fs

theorem registerFiles_fresh :
    ∀ (files : List FileMeta) (reg : List RegEntry) (nid : Nat),
      (∀ f ∈ files, ∀ e ∈ reg, ¬(e.name = f.name ∧ e.size = f.size)) →
      files.Pairwise (fun a b => ¬(a.name = b.name ∧ a.size = b.size)) →
      registerFiles (reg, nid) files =
        (reg ++ expectedReg nid files, nid + files.length) := by
  intro files
  induction files with
  | nil =>
    intro reg nid _ _
    simp [registerFiles, expectedReg]
  | cons f fs ih =>
    intro reg nid hno hpw
    have hany : (reg.any (fun e => keyMatches e f.name f.size)) = false := by
      rw [List.any_eq_false]
      intro e he
      have := hno f (List.mem_cons_self f fs) e he
      simp only [keyMatches, Bool.and_eq_true, beq_iff_eq]
      exact this
    have hstep : registerOne (reg, nid) f = (reg ++ [freshEntry nid f], nid + 1) := by
      unfold registerOne
      rw [if_neg (by rw [hany]; exact Bool.false_ne_true)]
    rw [List.pairwise_cons] at hpw
    have hno2 : ∀ g ∈ fs, ∀ e ∈ reg ++ [freshEntry nid f],
        ¬(e.name = g.name ∧ e.size = g.size) := by
      intro g hg e he
      rcases List.mem_append.mp he with he | he
      · exact hno g (List.mem_cons_of_mem f hg) e he
      · rcases List.mem_singleton.mp he with rfl
        exact hpw.1 g hg
    show registerFiles (registerOne (reg, nid) f) fs = _
    rw [hstep, ih (reg ++ [freshEntry nid f]) (nid + 1) hno2 hpw.2]
    rw [List.append_assoc, List.singleton_append]
    show (reg ++ (freshEntry nid f :: expectedReg (nid + 1) fs), _) = _
    rw [show (freshEntry nid f :: expectedReg (nid + 1) fs) =
      expectedReg nid (f :: fs) from rfl]
    rw [show nid + 1 + fs.length = nid + (f :: fs).length by
      simp only [List.length_cons]; omega]

theorem expectedReg_matches :
    ∀ (files : List FileMeta) (nid : Nat) (e : RegEntry),
      e ∈ expectedReg nid files →
      ∃ f ∈ files, e.name = f.name ∧ e.size = f.size := by
  intro files
  induction files with
  | nil => intro nid e he; cases he
  | cons f fs ih =>
    intro nid e he
    rcases List.mem_cons.mp he with rfl | he
    · exact ⟨f, List.mem_cons_self f fs, rfl, rfl⟩
    · obtain ⟨g, hg, hge⟩ := ih (nid + 1) e he
      exact ⟨g, List.mem_cons_of_mem f hg, hge⟩

theorem uploadFileIds_expectedReg (files : List FileMeta) (nid : Nat) :
    uploadFileIds files (expectedReg nid files) =
      (expectedReg nid files).map (fun e => e.id) := by
  unfold uploadFileIds
  have hfil : (expectedReg nid files).filter (matchesSomeInput files) =
      expectedReg nid files := by
    rw [List.filter_eq_self]
    intro e he
    obtain ⟨f, hf, h1, h2⟩ := expectedReg_matches files nid e he
    unfold matchesSomeInput
    rw [List.any_eq_true]
    refine ⟨f, hf, ?_⟩
    simp only [Bool.and_eq_true, beq_iff_eq]
    exact ⟨h1.symm, h2.symm⟩
  rw [hfil]

theorem expectedReg_length :
    ∀ (files : List FileMeta) (nid : Nat),
      (expectedReg nid files).length = files.length := by
  intro files
  induction files with
  | nil => intro nid; rfl
  | cons f fs ih =>
    intro nid
    simp only [expectedReg, List.length_cons, ih (nid + 1)]

theorem expectedReg_id_get :
    ∀ (files : List FileMeta) (nid k : Nat), k < files.length →
      ((expectedReg nid files).map (fun e => e.id))[k]? = some (nid + k) := by
  intro files
  induction files with
  | nil => intro nid k hk; exact absurd hk (by simp)
  | cons f fs ih =>
    intro nid k hk
    cases k with
    | zero =>
      show ((freshEntry nid f :: expectedReg (nid + 1) fs).map
        (fun e => e.id))[0]? = some (nid + 0)
      rw [List.map_cons, List.getElem?_cons_zero, Nat.add_zero]
      rfl
    | succ k2 =>
      show ((freshEntry nid f :: expectedReg (nid + 1) fs).map
        (fun e => e.id))[k2 + 1]? = some (nid + (k2 + 1))
      rw [List.map_cons, List.getElem?_cons_succ]
      rw [ih (nid + 1) k2 (by simp only [List.length_cons] at hk; omega)]
      rw [show nid + 1 + k2 = nid + (k2 + 1) by omega]

theorem expectedReg_mem_id :
    ∀ (files : List FileMeta) (nid k : Nat), k < files.length →
      ∃ e ∈ expectedReg nid files, e.id = nid + k := by
  intro files
  induction files with
  | nil => intro nid k hk; exact absurd hk (by simp)
  | cons f fs ih =>
    intro nid k hk
    cases k with
    | zero =>
      exact ⟨freshEntry nid f, List.mem_cons_self _ _, (Nat.add_zero nid).symm⟩
    | succ k2 =>
      obtain ⟨e, he, hei⟩ :=
        ih (nid + 1) k2 (by simp only [List.length_cons] at hk; omega)
      exact ⟨e, List.mem_cons_of_mem _ he, by omega⟩

/-- C8 amended: the results are one per queued id — one per live
registered (name, size) key matching the input — in registry order.  In
particular, starting from an empty registry with pairwise key-distinct
input files, `uploadFiles` returns exactly one result per input file, in
input order: the k-th result is the outcome of the pipeline of the id
registered for the k-th file. -/
theorem uploadFiles_one_result_per_registered (files : List FileMeta)
    (outc : PipelineOutcome) (mcOpt : Nat) (s : HookState)
    (hreg : s.registry = [])
    (hdist : files.Pairwise (fun a b => ¬(a.name = b.name ∧ a.size = b.size))) :
    ((uploadFiles files outc mcOpt s).1).length = files.length ∧
    (∀ k, k < files.length →
      ((uploadFiles files outc mcOpt s).1)[k]? =
        some (singleFileResult (outc (s.nextId + k)))) := by
  have hfresh := registerFiles_fresh files [] s.nextId
    (fun f _ e he => absurd he (List.not_mem_nil e)) hdist
  rw [List.nil_append] at hfresh
  have hres := uploadFiles_results_eq_map files outc mcOpt s
  rw [hreg] at hres
  rw [hfresh] at hres
  rw [show ((expectedReg s.nextId files, s.nextId + files.length) :
      List RegEntry × Nat).1 = expectedReg s.nextId files from rfl] at hres
  rw [uploadFileIds_expectedReg files s.nextId] at hres
  constructor
  · rw [hres, List.length_map, List.length_map, expectedReg_length]
  · intro k hk
    rw [hres, List.getElem?_map, expectedReg_id_get files s.nextId k hk]
    show some (resultForId (expectedReg s.nextId files) outc (s.nextId + k)) = _
    rw [resultForId_of_mem _ outc (s.nextId + k)
      (expectedReg_mem_id files s.nextId k hk)]

/-- C8 amended witness: two key-distinct files from a fresh state give
exactly two results. -/
theorem uploadFiles_one_result_per_registered_witness :
    ((uploadFiles [⟨"a", 1, "t"⟩, ⟨"b", 2, "u"⟩]
        (fun i => Except.ok ⟨"k", i, "e"⟩) 0 ⟨false, [], [], 0⟩).1).length = 2 := by
  have h := uploadFiles_one_result_per_registered
    [⟨"a", 1, "t"⟩, ⟨"b", 2, "u"⟩] (fun i => Except.ok ⟨"k", i, "e"⟩) 0
    ⟨false, [], [], 0⟩ rfl (by simp [List.pairwise_cons])
  exact h.1

/-! ## Aggregate progress (src/hooks/useDirectUpload.ts 252-261)

The onProgress callback installed by `processQueue` reports
`(Object.values(progress).reduce((sum, p) => sum + p, 0) + fileProgress) /
(Object.keys(progress).length + 1)` — the sum of the recorded per-file
progress values plus the reporting file's fresh value, divided by the
number of recorded values plus one.  Arithmetic is modelled exactly over
the rationals. -/

/-- Aggregate reported by the coordinator's onProgress (lines 255-259):
`recorded` are the values of the `progress` map, `fileProgress` the
reporting file's fresh value. -/
def aggregateProgress (recorded : List ℚ) (fileProgress : ℚ) : ℚ :=
  (recorded.sum + fileProgress) / (recorded.length + 1)

/-- Stated from the claim's words, for comparison: the arithmetic mean of
the progress values of all currently-tracked files. -/
def trackedMeanSpec (tracked : List ℚ) : ℚ :=
  tracked.sum / tracked.length

/-- C9 counterexample: one tracked file whose recorded progress is 50
reports a fresh value of 80.  The mean of the currently-tracked files'
progress values is 80, but the code reports (50 + 80) / (1 + 1) = 65 —
the file's own stale entry is counted alongside its fresh value. -/
theorem aggregateProgress_not_tracked_mean :
    aggregateProgress [50] 80 = 65 ∧ trackedMeanSpec [80] = 80 ∧
      aggregateProgress [50] 80 ≠ trackedMeanSpec [80] := by
  refine ⟨?_, ?_, ?_⟩ <;> norm_num [aggregateProgress, trackedMeanSpec]

/-- C9 amended: the reported aggregate is the arithmetic mean of the
recorded per-file progress values together with the reporting file's
fresh value appended as one more sample.  It therefore equals the mean of
all currently-tracked files only when the reporting file has no recorded
entry and every other tracked file has exactly one recorded entry;
a recorded entry for the reporting file is double-counted rather than
replaced. -/
theorem aggregateProgress_eq_mean_with_new_value (others : List ℚ) (p : ℚ) :
    aggregateProgress others p = trackedMeanSpec (p :: others) := by
  unfold aggregateProgress trackedMeanSpec
  rw [List.sum_cons, List.length_cons]
  push_cast
  ring_nf

end DirectUpload
